import Mathlib

/-!
Verification development for the epub-edit core: a shallow embedding of
`app/services/edit_parser.py`, `app/services/llm_service.py` and
`app/services/processing_service.py`, together with theorems settling the
specification claims about them.

Python strings are embedded as `List Char` (`PyStr`); Python `int` as `Int`
where subtraction occurs, `Nat` elsewhere.  Mutating code is embedded as
explicit state passing.
-/

namespace EpubEdit

/-- Embedding of a Python `str` as a list of characters. -/
abbrev PyStr := List Char

/-- The ASCII whitespace characters stripped by Python's `str.strip()`
(space, tab, newline, carriage return, vertical tab, form feed).  The
source only ever strips LLM output, so the ASCII subset is what matters. -/
def pyIsSpace (c : Char) : Bool :=
  c = ' ' || c = '\t' || c = '\n' || c = '\r' || c = '\x0b' || c = '\x0c'

/-- Python `str.strip()`: drop whitespace from both ends. -/
def strip (s : PyStr) : PyStr :=
  ((s.dropWhile pyIsSpace).reverse.dropWhile pyIsSpace).reverse

/-- Python `str.split(sep)` for a one-character separator `sep`
(as used with `"◊"` and `"\n"` in the source); `"".split(sep) == [""]`. -/
def splitChar (sep : Char) : PyStr → List PyStr
  | [] => [[]]
  | c :: cs =>
    if c = sep then [] :: splitChar sep cs
    else
      match splitChar sep cs with
      | [] => [[c]]
      | r :: rs => (c :: r) :: rs

/-- Python `sep.join(parts)` for a one-character separator. -/
def joinSep (sep : Char) : List PyStr → PyStr
  | [] => []
  | [x] => x
  | x :: y :: rest => x ++ sep :: joinSep sep (y :: rest)

/-- Python `needle in haystack` (substring containment). -/
def containsSub (needle : PyStr) : PyStr → Bool
  | [] => decide (needle = [])
  | c :: cs => needle.isPrefixOf (c :: cs) || containsSub needle cs

/-- Auxiliary for `pyReplace`: replace non-overlapping occurrences of the
non-empty pattern `pat` left to right, as Python's `str.replace` does.
The `skip` counter consumes the tail of a matched occurrence one
character at a time, keeping the recursion structural in the string. -/
def pyReplaceAux (pat rep : PyStr) : Nat → PyStr → PyStr
  | _, [] => []
  | skip + 1, _ :: cs => pyReplaceAux pat rep skip cs
  | 0, c :: cs =>
    if pat.isPrefixOf (c :: cs) then
      rep ++ pyReplaceAux pat rep (pat.length - 1) cs
    else
      c :: pyReplaceAux pat rep 0 cs

/-- Interleaving used by Python `str.replace` with an empty pattern:
`"ab".replace("", r) == r + "a" + r + "b" + r`. -/
def interleaveRep (rep : PyStr) : PyStr → PyStr
  | [] => []
  | c :: cs => c :: (rep ++ interleaveRep rep cs)

/-- Python `s.replace(pat, rep)` (literal, non-regex, all occurrences). -/
def pyReplace (s pat rep : PyStr) : PyStr :=
  if pat = [] then rep ++ interleaveRep rep s
  else pyReplaceAux pat rep 0 s

/-- `lines[idx] = f(lines[idx])` on a functional list (no-op out of range). -/
def modifyAt (f : PyStr → PyStr) : Nat → List PyStr → List PyStr
  | _, [] => []
  | 0, l :: ls => f l :: ls
  | n + 1, l :: ls => l :: modifyAt f n ls

/-- Python `list.insert(n, x)` (clamps to append when `n` exceeds length). -/
def insertAt (x : PyStr) : Nat → List PyStr → List PyStr
  | 0, ls => x :: ls
  | _ + 1, [] => [x]
  | n + 1, l :: ls => l :: insertAt x n ls

/-- The tagged union of edit commands from `edit_parser.py`
(`ReplaceCommand`, `DeleteCommand`, `InsertCommand`, `MergeCommand`). -/
inductive EditCommand where
  | replace (line_num : Int) (pattern replacement : PyStr)
  | delete (line_num : Int)
  | insert (line_num : Int) (text : PyStr)
  | merge (start_line end_line : Int) (text : PyStr)
  deriving DecidableEq

/-- `self.line_num`: for `MergeCommand` the constructor stores
`start_line` into the base-class `line_num` field. -/
def EditCommand.line_num : EditCommand → Int
  | .replace l _ _ => l
  | .delete l => l
  | .insert l _ => l
  | .merge s _ _ => s

/-- `EditCommand.apply` of each subclass in `edit_parser.py`, with the
mutation on `lines` made explicit.  Out-of-range commands only log and
return the lines unchanged. -/
def applyCommand (cmd : EditCommand) (lines : List PyStr) : List PyStr :=
  match cmd with
  | .replace line pat rep =>
    if 0 < line ∧ line ≤ (lines.length : Int) then
      modifyAt (fun l => pyReplace l pat rep) (line - 1).toNat lines
    else lines
  | .delete line =>
    if 0 < line ∧ line ≤ (lines.length : Int) then
      modifyAt (fun _ => []) (line - 1).toNat lines
    else lines
  | .insert line text =>
    if 0 < line ∧ line ≤ (lines.length : Int) then
      insertAt text ((line - 1).toNat + 1) lines
    else lines
  | .merge start_line end_line text =>
    if (0 < start_line ∧ start_line ≤ (lines.length : Int)) ∧
       (0 < end_line ∧ end_line ≤ (lines.length : Int)) then
      let start_idx := (start_line - 1).toNat
      let end_idx := (end_line - 1).toNat
      lines.enum.map (fun p =>
        if p.1 = start_idx then text
        else if start_idx < p.1 ∧ p.1 ≤ end_idx then []
        else p.2)
    else lines

/-- ASCII digit test for the regex `\d` as used on LLM output. -/
def isDigitCh (c : Char) : Bool := '0' ≤ c && c ≤ '9'

/-- Python `int()` on a digit string. -/
def digitsToNat (ds : PyStr) : Nat :=
  ds.foldl (fun n c => 10 * n + (c.toNat - '0'.toNat)) 0

/-- The lazy group split of `(.+?)⟹(.+)` (DOTALL): find the first `⟹` at
position ≥ 1 that still leaves at least one character after it. -/
def splitArrowAux (acc : PyStr) : PyStr → Option (PyStr × PyStr)
  | [] => none
  | c :: cs =>
    if c = '⟹' ∧ cs ≠ [] then some (acc.reverse, cs)
    else splitArrowAux (c :: acc) cs

/-- Split `pattern⟹replacement` for the replace command's regex. -/
def splitArrow : PyStr → Option (PyStr × PyStr)
  | [] => none
  | c :: cs => splitArrowAux [c] cs

/-- Regex `R∆(\d+)∆(.+?)⟹(.+)` (DOTALL) applied to a segment already known
to start with `R∆`; groups 2 and 3 are stripped. -/
def parseReplaceSeg (part : PyStr) : Option EditCommand :=
  let rest := part.drop 2
  let ds := rest.takeWhile isDigitCh
  if ds = [] then none
  else
    match rest.dropWhile isDigitCh with
    | '∆' :: t =>
      match splitArrow t with
      | some (pat, rep) =>
        some (.replace (digitsToNat ds) (strip pat) (strip rep))
      | none => none
    | _ => none

/-- Regex `D∆(\d+)` (trailing characters permitted by `re.match`). -/
def parseDeleteSeg (part : PyStr) : Option EditCommand :=
  let ds := (part.drop 2).takeWhile isDigitCh
  if ds = [] then none else some (.delete (digitsToNat ds))

/-- Regex `I∆(\d+)∆(.+)` (DOTALL), group 2 stripped. -/
def parseInsertSeg (part : PyStr) : Option EditCommand :=
  let rest := part.drop 2
  let ds := rest.takeWhile isDigitCh
  if ds = [] then none
  else
    match rest.dropWhile isDigitCh with
    | '∆' :: t => if t = [] then none else some (.insert (digitsToNat ds) (strip t))
    | _ => none

/-- Regex `M∆(\d+)-(\d+)∆(.+)` (DOTALL), group 3 stripped. -/
def parseMergeSeg (part : PyStr) : Option EditCommand :=
  let rest := part.drop 2
  let ds := rest.takeWhile isDigitCh
  if ds = [] then none
  else
    match rest.dropWhile isDigitCh with
    | '-' :: t =>
      let ds2 := t.takeWhile isDigitCh
      if ds2 = [] then none
      else
        match t.dropWhile isDigitCh with
        | '∆' :: t2 =>
          if t2 = [] then none
          else some (.merge (digitsToNat ds) (digitsToNat ds2) (strip t2))
        | _ => none
    | _ => none

/-- The body of the parsing loop of `EditParser.parse_edits` for one
stripped, non-empty segment: dispatch on the two-character command prefix;
a segment whose prefix matches but whose body does not parse is dropped. -/
def parseSegment (part : PyStr) : Option EditCommand :=
  if ("R∆".data).isPrefixOf part then parseReplaceSeg part
  else if ("D∆".data).isPrefixOf part then parseDeleteSeg part
  else if ("I∆".data).isPrefixOf part then parseInsertSeg part
  else if ("M∆".data).isPrefixOf part then parseMergeSeg part
  else none

/-- The `NO_EDITS_NEEDED` sentinel. -/
def noEditsSentinel : PyStr := "NO_EDITS_NEEDED".data

/-- `EditParser.parse_edits`: sentinel check on the stripped input, then
split on `◊`, strip each segment, skip empties, and append each segment
that parses; malformed segments are dropped. -/
def parse_edits (edit_string : PyStr) : List EditCommand :=
  if containsSub noEditsSentinel (strip edit_string) then []
  else
    (splitChar '◊' edit_string).foldl
      (fun commands part =>
        let p := strip part
        if p = [] then commands
        else
          match parseSegment p with
          | some c => commands ++ [c]
          | none => commands)
      []

/-- The stats dictionary built by `EditParser.apply_edits`. -/
structure EditStats where
  total_edits : Nat
  replacements : Nat
  deletions : Nat
  insertions : Nat
  merges : Nat
  original_line_count : Nat
  edited_line_count : Nat
  deriving DecidableEq

/-- The per-command stats update in the `apply_edits` loop (dispatch on
`isinstance`). -/
def bumpStats (s : EditStats) : EditCommand → EditStats
  | .replace .. => { s with replacements := s.replacements + 1 }
  | .delete .. => { s with deletions := s.deletions + 1 }
  | .insert .. => { s with insertions := s.insertions + 1 }
  | .merge .. => { s with merges := s.merges + 1 }

/-- Python's final filter predicate `line != "" or line.strip()`
(`or` of the two truthinesses, exactly as written in the source). -/
def keepLine (l : PyStr) : Bool := !l.isEmpty || !(strip l).isEmpty

/-- `EditParser.apply_edits`: split into lines, apply every command in
order while counting variants, filter with `keepLine`, join with `"\n"`. -/
def apply_edits (content : PyStr) (commands : List EditCommand) :
    PyStr × EditStats :=
  let lines := splitChar '\n' content
  let original_line_count := lines.length
  let init : EditStats :=
    ⟨commands.length, 0, 0, 0, 0, 0, 0⟩
  let done := commands.foldl
    (fun (p : List PyStr × EditStats) c => (applyCommand c p.1, bumpStats p.2 c))
    (lines, init)
  let kept := done.1.filter keepLine
  (joinSep '\n' kept,
   { done.2 with
      original_line_count := original_line_count,
      edited_line_count := kept.length })

/-- One chapter as handed to `LLMService.edit_chapters_batch`
(`{number, title, content}`). -/
structure ChapterIn where
  number : Nat
  title : PyStr
  content : PyStr
  deriving DecidableEq

/-- One value of the `chapter_line_map` dictionary built by
`edit_chapters_batch`. -/
structure LineMapping where
  start_line : Nat
  end_line : Nat
  original_content : PyStr
  line_count : Nat
  deriving DecidableEq

/-- The mapping-building loop of `LLMService.edit_chapters_batch`:
`current_line` starts at 1; per chapter `end_line = current_line + len(lines) - 1`
and the next chapter continues at `end_line + 1`.  The Python dict keeps
insertion order, embedded as an association list. -/
def buildChapterLineMap : Nat → List ChapterIn → List (Nat × LineMapping)
  | _, [] => []
  | current_line, chapter :: rest =>
    let lines := splitChar '\n' chapter.content
    let start_line := current_line
    let end_line := current_line + lines.length - 1
    (chapter.number, ⟨start_line, end_line, chapter.content, lines.length⟩)
      :: buildChapterLineMap (end_line + 1) rest

/-- The `chapter_line_map` of a batch (numbering starts at line 1). -/
def chapter_line_map (chapters : List ChapterIn) : List (Nat × LineMapping) :=
  buildChapterLineMap 1 chapters

/-- `ProcessingService._adjust_command_line_number`:
`adjusted_line = command.line_num - start_line + 1`, per variant. -/
def adjustCommand (command : EditCommand) (start_line : Nat) : EditCommand :=
  match command with
  | .replace l pat rep => .replace (l - (start_line : Int) + 1) pat rep
  | .delete l => .delete (l - (start_line : Int) + 1)
  | .insert l text => .insert (l - (start_line : Int) + 1) text
  | .merge s e text =>
    .merge (s - (start_line : Int) + 1) (e - (start_line : Int) + 1) text

/-- The per-command inner loop of `ProcessingService._process_chapter_batch`:
scan the chapter line map in order, and on the first chapter whose
`[start_line, end_line]` range contains `command.line_num`, emit the
adjusted command for that chapter (`break`); otherwise the command is
dropped. -/
def assignCommand (chapterMap : List (Nat × LineMapping)) (command : EditCommand) :
    Option (Nat × EditCommand) :=
  match chapterMap with
  | [] => none
  | (ch_num, mapping) :: rest =>
    if (mapping.start_line : Int) ≤ command.line_num ∧
       command.line_num ≤ (mapping.end_line : Int) then
      some (ch_num, adjustCommand command mapping.start_line)
    else assignCommand rest command

/-- The grouping of all parsed commands by chapter (commands falling in no
mapping are dropped). -/
def splitCommandsByChapter (commands : List EditCommand)
    (chapterMap : List (Nat × LineMapping)) : List (Nat × EditCommand) :=
  commands.filterMap (assignCommand chapterMap)

/-- A demo batch whose chapters have 3, 5 and 2 lines. -/
def demoChapters : List ChapterIn :=
  [⟨1, "One".data, "a1\na2\na3".data⟩,
   ⟨2, "Two".data, "b1\nb2\nb3\nb4\nb5".data⟩,
   ⟨3, "Three".data, "c1\nc2".data⟩]

/-- What one attempt of `LLMService.generate_completion` observes:
a well-formed 2xx response, an HTTP error status raised by
`raise_for_status`, or a transport-level error (`httpx.RequestError` or
`json.JSONDecodeError`). -/
inductive AttemptResult where
  | success (content : PyStr)
  | httpError (code : Nat) (body : PyStr)
  | transportError
  deriving DecidableEq

/-- How `LLMService.generate_completion` terminates. -/
inductive CompletionOutcome where
  | success (content : PyStr)
  | clientError (code : Nat) (body : PyStr)
  | transportRaise
  | exhausted (attempts : Nat)
  deriving DecidableEq

/-- The retry loop of `LLMService.generate_completion`
(`for attempt in range(max_retries)`), with the environment's answer to
each attempt given by `response`.  Returns the outcome together with the
list of backoff sleeps performed, in order; `fuel` counts the attempts
still available (`max_retries - attempt`).  HTTP 429 and HTTP ≥ 500 sleep
`2 ^ attempt` and retry; any other HTTP error raises immediately with the
response body; transport errors retry unless this was the last attempt,
in which case the original error propagates; falling off the loop raises
the terminal failure naming `max_retries`. -/
def generateCompletionAux (max_retries : Nat) (response : Nat → AttemptResult) :
    Nat → Nat → List Nat → CompletionOutcome × List Nat
  | _, 0, sleeps => (.exhausted max_retries, sleeps)
  | attempt, fuel + 1, sleeps =>
    match response attempt with
    | .success content => (.success content, sleeps)
    | .httpError code body =>
      if code = 429 then
        generateCompletionAux max_retries response (attempt + 1) fuel
          (sleeps ++ [2 ^ attempt])
      else if 500 ≤ code then
        generateCompletionAux max_retries response (attempt + 1) fuel
          (sleeps ++ [2 ^ attempt])
      else (.clientError code body, sleeps)
    | .transportError =>
      if attempt < max_retries - 1 then
        generateCompletionAux max_retries response (attempt + 1) fuel
          (sleeps ++ [2 ^ attempt])
      else (.transportRaise, sleeps)

/-- `LLMService.generate_completion` as a function of the per-attempt
environment behaviour. -/
def generate_completion (max_retries : Nat) (response : Nat → AttemptResult) :
    CompletionOutcome × List Nat :=
  generateCompletionAux max_retries response 0 max_retries []

/-- One worker's loop from `ProcessingService._worker`, for a fixed value
of the shared `is_running` flag and with `is_paused` false (stop clears
both flags).  Batches are abstract ids.  Returns the queue items never
pulled, the number of `queue.task_done()` calls, and the batches for
which `_process_chapter_batch` (and hence the LLM gateway) was invoked,
in order.  A worker that pulls an item while the run is stopped calls
`task_done` for that single item and breaks out of its loop. -/
def workerDrain (is_running : Bool) : List Nat → List Nat × Nat × List Nat
  | [] => ([], 0, [])
  | batch :: rest =>
    if is_running = false then (rest, 1, [])
    else
      let r := workerDrain is_running rest
      (r.1, r.2.1 + 1, batch :: r.2.2)

/-!
Embedding of the standard-library diff used by `EditParser.generate_diff`:
CPython `difflib.SequenceMatcher` with `isjunk=None` (so the junk set is
empty and the junk-extension loops of `find_longest_match` are no-ops)
and `difflib.unified_diff` with default file names and `lineterm=""`.
-/

/-- A line of a diff input. -/
abbrev DLine := PyStr

/-- Append index `i` to the `b2j` entry of `elt`, keeping insertion order
(Python `b2j.setdefault(elt, []).append(i)`). -/
def addB2j (m : List (DLine × List Nat)) (elt : DLine) (i : Nat) :
    List (DLine × List Nat) :=
  match m with
  | [] => [(elt, [i])]
  | (k, v) :: rest =>
    if k = elt then (k, v ++ [i]) :: rest else (k, v) :: addB2j rest elt i

/-- The raw `b2j` map: each line of `b` to its ascending list of indices. -/
def b2jRaw (b : List DLine) : List (DLine × List Nat) :=
  b.enum.foldl (fun m p => addB2j m p.2 p.1) []

/-- `SequenceMatcher.__chain_b` with `isjunk=None`: the raw map, minus
popular entries when `autojunk` applies (`len(b) >= 200` and an element
occurring more than `len(b) // 100 + 1` times). -/
def b2j (b : List DLine) : List (DLine × List Nat) :=
  let raw := b2jRaw b
  if 200 ≤ b.length then
    let ntest := b.length / 100 + 1
    raw.filter (fun p => p.2.length ≤ ntest)
  else raw

/-- `b2j.get(key, [])`. -/
def b2jGet (m : List (DLine × List Nat)) (key : DLine) : List Nat :=
  match m.find? (fun p => p.1 == key) with
  | some p => p.2
  | none => []

/-- `j2len.get(k, 0)` on the association-list embedding of the dict
(later insertions shadow earlier ones). -/
def dictGet0 (m : List (Nat × Nat)) (k : Nat) : Nat :=
  match m.find? (fun p => p.1 == k) with
  | some p => p.2
  | none => 0

/-- The running best match of `find_longest_match`. -/
structure FLMBest where
  besti : Nat
  bestj : Nat
  bestsize : Nat

/-- The dictionary scan of `find_longest_match`: for each `i` in
`range(alo, ahi)` walk the `b2j` indices of `a[i]` restricted to
`[blo, bhi)` (`continue` below `blo`, `break` at `bhi`: the lists are
ascending), chaining `j2len` and keeping the first longest match.
`i + 1 - k` embeds Python's `i - k + 1` (always non-negative here). -/
def flmScan (a : List DLine) (bjmap : List (DLine × List Nat))
    (alo ahi blo bhi : Nat) : FLMBest :=
  let r := (List.range' alo (ahi - alo)).foldl
    (fun (acc : List (Nat × Nat) × FLMBest) i =>
      let js := ((b2jGet bjmap (a.getD i [])).filter (fun j => blo ≤ j)).takeWhile
        (fun j => j < bhi)
      js.foldl
        (fun (p : List (Nat × Nat) × FLMBest) j =>
          let k := (if j = 0 then 0 else dictGet0 acc.1 (j - 1)) + 1
          let best := p.2
          ((j, k) :: p.1,
           if best.bestsize < k then ⟨i + 1 - k, j + 1 - k, k⟩ else best))
        ([], acc.2))
    ([], ⟨alo, blo, 0⟩)
  r.2

/-- The backward extension loop of `find_longest_match` (junk set empty,
so `not isbjunk(...)` always holds); structural recursion on `besti`,
which each iteration decrements. -/
def extendBack (a b : List DLine) (alo blo : Nat) :
    Nat → Nat → Nat → Nat × Nat × Nat
  | 0, bestj, bestsize => (0, bestj, bestsize)
  | besti + 1, bestj, bestsize =>
    if alo < besti + 1 ∧ blo < bestj ∧
       a.getD besti [] = b.getD (bestj - 1) [] then
      extendBack a b alo blo besti (bestj - 1) (bestsize + 1)
    else (besti + 1, bestj, bestsize)

/-- The forward extension loop of `find_longest_match`; `fuel` starts at
`ahi - (besti + bestsize)`, which bounds the iteration count, and when it
reaches 0 the loop guard is false anyway. -/
def extendFwdGo (a b : List DLine) (ahi bhi besti bestj : Nat) :
    Nat → Nat → Nat
  | 0, bestsize => bestsize
  | fuel + 1, bestsize =>
    if besti + bestsize < ahi ∧ bestj + bestsize < bhi ∧
       a.getD (besti + bestsize) [] = b.getD (bestj + bestsize) [] then
      extendFwdGo a b ahi bhi besti bestj fuel (bestsize + 1)
    else bestsize

/-- The forward extension loop of `find_longest_match`. -/
def extendFwd (a b : List DLine) (ahi bhi besti bestj bestsize : Nat) : Nat :=
  extendFwdGo a b ahi bhi besti bestj (ahi - (besti + bestsize)) bestsize

/-- `SequenceMatcher.find_longest_match` on `a[alo:ahi]` / `b[blo:bhi]`. -/
def find_longest_match (a b : List DLine) (bjmap : List (DLine × List Nat))
    (alo ahi blo bhi : Nat) : Nat × Nat × Nat :=
  let st := flmScan a bjmap alo ahi blo bhi
  let e := extendBack a b alo blo st.besti st.bestj st.bestsize
  let bs := extendFwd a b ahi bhi e.1 e.2.1 e.2.2
  (e.1, e.2.1, bs)

/-- The recursive split of `get_matching_blocks`, written as the in-order
traversal (which is exactly the sorted block list CPython produces from
its explicit stack).  `fuel` bounds the recursion depth; every recursive
call strictly shrinks the `a`-interval, so `a.length + b.length + 1`
is always sufficient. -/
def matchingBlocksAux (a b : List DLine) (bjmap : List (DLine × List Nat)) :
    Nat → Nat → Nat → Nat → Nat → List (Nat × Nat × Nat)
  | 0, _, _, _, _ => []
  | fuel + 1, alo, ahi, blo, bhi =>
    let m := find_longest_match a b bjmap alo ahi blo bhi
    let i := m.1
    let j := m.2.1
    let k := m.2.2
    if k = 0 then []
    else
      (if alo < i ∧ blo < j then matchingBlocksAux a b bjmap fuel alo i blo j
       else [])
      ++ [(i, j, k)]
      ++ (if i + k < ahi ∧ j + k < bhi then
            matchingBlocksAux a b bjmap fuel (i + k) ahi (j + k) bhi
          else [])

/-- The adjacency merge at the end of `get_matching_blocks`. -/
def collapseBlocks : Nat → Nat → Nat → List (Nat × Nat × Nat) →
    List (Nat × Nat × Nat)
  | i1, j1, k1, [] => if k1 ≠ 0 then [(i1, j1, k1)] else []
  | i1, j1, k1, (i2, j2, k2) :: rest =>
    if i1 + k1 = i2 ∧ j1 + k1 = j2 then collapseBlocks i1 j1 (k1 + k2) rest
    else if k1 ≠ 0 then (i1, j1, k1) :: collapseBlocks i2 j2 k2 rest
    else collapseBlocks i2 j2 k2 rest

/-- `SequenceMatcher.get_matching_blocks`, ending with the sentinel
`(len(a), len(b), 0)`. -/
def get_matching_blocks (a b : List DLine) : List (Nat × Nat × Nat) :=
  let blocks := matchingBlocksAux a b (b2j b) (a.length + b.length + 1)
    0 a.length 0 b.length
  collapseBlocks 0 0 0 blocks ++ [(a.length, b.length, 0)]

/-- Opcode tags of `SequenceMatcher.get_opcodes`. -/
inductive OpTag where
  | replace
  | delete
  | insert
  | equal
  deriving DecidableEq

/-- One opcode `(tag, i1, i2, j1, j2)`. -/
structure Opcode where
  tag : OpTag
  i1 : Nat
  i2 : Nat
  j1 : Nat
  j2 : Nat
  deriving DecidableEq

/-- The loop of `get_opcodes` over the matching blocks. -/
def getOpcodesAux : Nat → Nat → List (Nat × Nat × Nat) → List Opcode
  | _, _, [] => []
  | i, j, (ai, bj, size) :: rest =>
    (if i < ai ∧ j < bj then [⟨.replace, i, ai, j, bj⟩]
     else if i < ai then [⟨.delete, i, ai, j, bj⟩]
     else if j < bj then [⟨.insert, i, ai, j, bj⟩]
     else [])
    ++ (if size ≠ 0 then [⟨.equal, ai, ai + size, bj, bj + size⟩] else [])
    ++ getOpcodesAux (ai + size) (bj + size) rest

/-- `SequenceMatcher.get_opcodes`. -/
def get_opcodes (a b : List DLine) : List Opcode :=
  getOpcodesAux 0 0 (get_matching_blocks a b)

/-- `get_grouped_opcodes`: clip a leading equal run to `n` context lines. -/
def clipFirstEqual (n : Nat) (codes : List Opcode) : List Opcode :=
  match codes with
  | ⟨.equal, i1, i2, j1, j2⟩ :: rest =>
    ⟨.equal, max i1 (i2 - n), i2, max j1 (j2 - n), j2⟩ :: rest
  | _ => codes

/-- `get_grouped_opcodes`: clip a trailing equal run to `n` context lines. -/
def clipLastEqual (n : Nat) (codes : List Opcode) : List Opcode :=
  match codes.reverse with
  | ⟨.equal, i1, i2, j1, j2⟩ :: revInit =>
    (⟨.equal, i1, min i2 (i1 + n), j1, min j2 (j1 + n)⟩ :: revInit).reverse
  | _ => codes

/-- The grouping loop of `get_grouped_opcodes`: a large equal run
(`> 2n`) ends the current group and starts the next; a final group that
is a single equal opcode is not emitted. -/
def groupOpcodes (n : Nat) (group : List Opcode) : List Opcode → List (List Opcode)
  | [] =>
    if group ≠ [] ∧
       ¬(group.length = 1 ∧ (group.headD ⟨.equal, 0, 0, 0, 0⟩).tag = .equal)
    then [group] else []
  | c :: rest =>
    if c.tag = .equal ∧ n + n < c.i2 - c.i1 then
      (group ++ [⟨c.tag, c.i1, min c.i2 (c.i1 + n), c.j1, min c.j2 (c.j1 + n)⟩])
        :: groupOpcodes n [⟨c.tag, max c.i1 (c.i2 - n), c.i2,
                            max c.j1 (c.j2 - n), c.j2⟩] rest
    else groupOpcodes n (group ++ [c]) rest

/-- `SequenceMatcher.get_grouped_opcodes` with `n` context lines. -/
def get_grouped_opcodes (a b : List DLine) (n : Nat) : List (List Opcode) :=
  let codes := get_opcodes a b
  let codes := if codes = [] then [⟨.equal, 0, 1, 0, 1⟩] else codes
  let codes := clipFirstEqual n codes
  let codes := clipLastEqual n codes
  groupOpcodes n [] codes

/-- Decimal digits of `n`, most significant first. -/
def natToChars (n : Nat) : PyStr := Nat.toDigits 10 n

/-- `difflib._format_range_unified`. -/
def formatRangeUnified (start stop : Nat) : PyStr :=
  let beginning := start + 1
  let length := stop - start
  if length = 1 then natToChars beginning
  else
    natToChars (if length = 0 then beginning - 1 else beginning)
      ++ ',' :: natToChars length

/-- Python slice `l[i:j]`. -/
def pySlice (l : List DLine) (i j : Nat) : List DLine := (l.drop i).take (j - i)

/-- The body lines one opcode contributes to a unified-diff hunk. -/
def opcodeLines (a b : List DLine) (op : Opcode) : List PyStr :=
  match op.tag with
  | .equal => (pySlice a op.i1 op.i2).map (fun line => ' ' :: line)
  | .replace =>
    (pySlice a op.i1 op.i2).map (fun line => '-' :: line)
      ++ (pySlice b op.j1 op.j2).map (fun line => '+' :: line)
  | .delete => (pySlice a op.i1 op.i2).map (fun line => '-' :: line)
  | .insert => (pySlice b op.j1 op.j2).map (fun line => '+' :: line)

/-- One hunk of `unified_diff`: the `@@` header then the body lines. -/
def hunkLines (a b : List DLine) (group : List Opcode) : List PyStr :=
  match group with
  | [] => []
  | first :: _ =>
    let last := (group.getLast?).getD first
    let header := "@@ -".data ++ formatRangeUnified first.i1 last.i2
      ++ " +".data ++ formatRangeUnified first.j1 last.j2 ++ " @@".data
    header :: group.foldr (fun op acc => opcodeLines a b op ++ acc) []

/-- `difflib.unified_diff(a, b, lineterm="", n=n)` with default (empty)
file names: the two file-header lines are emitted once, before the first
group, and are the literal strings `"--- "` and `"+++ "`. -/
def unified_diff (a b : List DLine) (n : Nat) : List PyStr :=
  match get_grouped_opcodes a b n with
  | [] => []
  | groups =>
    "--- ".data :: "+++ ".data
      :: groups.foldr (fun g acc => hunkLines a b g ++ acc) []

/-- Classification of one diff body line in `EditParser.generate_diff`. -/
inductive ChangeType where
  | context
  | addition
  | deletion
  deriving DecidableEq

/-- One entry of a chunk's `changes` list. -/
structure DiffChange where
  type : ChangeType
  content : PyStr
  deriving DecidableEq

/-- One structured diff chunk (`{"header": ..., "changes": [...]}`). -/
structure DiffChunk where
  header : PyStr
  changes : List DiffChange
  deriving DecidableEq

/-- The classification step of `generate_diff`: default `context`,
`deletion` when the line starts with `-`, `addition` when it starts
with `+`. -/
def classifyChange (line : PyStr) : ChangeType :=
  if ("-".data).isPrefixOf line then .deletion
  else if ("+".data).isPrefixOf line then .addition
  else .context

/-- The chunking loop of `EditParser.generate_diff` over the diff lines:
`---`/`+++` lines are skipped, each `@@` line closes the current chunk
and opens a new one, and other lines are appended to the open chunk
(lines before any `@@` are dropped). -/
def chunkDiffLines : Option DiffChunk → List PyStr → List DiffChunk
  | current, [] =>
    match current with
    | some c => [c]
    | none => []
  | current, line :: rest =>
    if ("---".data).isPrefixOf line ∨ ("+++".data).isPrefixOf line then
      chunkDiffLines current rest
    else if ("@@".data).isPrefixOf line then
      match current with
      | some c => c :: chunkDiffLines (some ⟨line, []⟩) rest
      | none => chunkDiffLines (some ⟨line, []⟩) rest
    else
      match current with
      | some c =>
        chunkDiffLines
          (some ⟨c.header, c.changes ++ [⟨classifyChange line, line⟩]⟩) rest
      | none => chunkDiffLines none rest

/-- `EditParser.generate_diff`: unified diff with 3 context lines, parsed
into structured chunks. -/
def generate_diff (original edited : PyStr) : List DiffChunk :=
  chunkDiffLines none
    (unified_diff (splitChar '\n' original) (splitChar '\n' edited) 3)

/-! Derived notions used to state the claims. -/

/-- `isinstance(command, ReplaceCommand)`. -/
def isReplace : EditCommand → Bool
  | .replace .. => true
  | _ => false

/-- `isinstance(command, DeleteCommand)`. -/
def isDelete : EditCommand → Bool
  | .delete .. => true
  | _ => false

/-- `isinstance(command, InsertCommand)`. -/
def isInsert : EditCommand → Bool
  | .insert .. => true
  | _ => false

/-- `isinstance(command, MergeCommand)`. -/
def isMerge : EditCommand → Bool
  | .merge .. => true
  | _ => false

/-- The command-application fold of `apply_edits`, without the stats. -/
def applyAll (commands : List EditCommand) (lines : List PyStr) : List PyStr :=
  commands.foldl (fun ls c => applyCommand c ls) lines

/-- How one command changes the length of an `n`-line array: an in-range
`Insert` grows it by one, everything else leaves it unchanged. -/
def insertDelta (c : EditCommand) (n : Nat) : Nat :=
  match c with
  | .insert line _ => if 0 < line ∧ line ≤ (n : Int) then 1 else 0
  | _ => 0

/-- The handling of one raw `◊`-segment in `parse_edits`: strip it, skip
it when empty, otherwise parse it. -/
def parseStripped (part : PyStr) : Option EditCommand :=
  let p := strip part
  if p = [] then none else parseSegment p

/-- A gateway environment answering 429 twice and then succeeding. -/
def resp429 : Nat → AttemptResult := fun i =>
  if i = 0 then .httpError 429 "rate limited".data
  else if i = 1 then .httpError 429 "rate limited".data
  else .success "ok".data

/-- Whether one attempt outcome is an HTTP error the gateway retries
(429 or any status ≥ 500). -/
def isRetryableHttp : AttemptResult → Bool
  | .httpError code _ => code == 429 || 500 ≤ code
  | _ => false

end EpubEdit

/-! Helper lemmas shared by the claim theorems. -/

namespace EpubEdit

lemma keepLine_eq_not_isEmpty (l : PyStr) : keepLine l = !l.isEmpty := by
  cases l <;> simp [keepLine, strip]

lemma applyFold_fst (commands : List EditCommand) :
    ∀ (lines : List PyStr) (s : EditStats),
      (commands.foldl
        (fun (p : List PyStr × EditStats) c => (applyCommand c p.1, bumpStats p.2 c))
        (lines, s)).1
      = applyAll commands lines := by
  induction commands with
  | nil => intro lines s; rfl
  | cons c cs ih =>
    intro lines s
    simp only [applyAll, List.foldl_cons]
    exact ih (applyCommand c lines) (bumpStats s c)

lemma applyFold_snd (commands : List EditCommand) :
    ∀ (lines : List PyStr) (s : EditStats),
      (commands.foldl
        (fun (p : List PyStr × EditStats) c => (applyCommand c p.1, bumpStats p.2 c))
        (lines, s)).2
      = { s with
            replacements := s.replacements + commands.countP isReplace,
            deletions := s.deletions + commands.countP isDelete,
            insertions := s.insertions + commands.countP isInsert,
            merges := s.merges + commands.countP isMerge } := by
  induction commands with
  | nil => intro lines s; simp [List.countP, List.countP.go]
  | cons c cs ih =>
    intro lines s
    simp only [List.foldl_cons]
    rw [ih (applyCommand c lines) (bumpStats s c)]
    cases c <;>
      simp [bumpStats, List.countP_cons, isReplace, isDelete, isInsert, isMerge] <;>
      omega

lemma apply_edits_characterization (content : PyStr) (commands : List EditCommand) :
    (apply_edits content commands).1
      = joinSep '\n' ((applyAll commands (splitChar '\n' content)).filter
          (fun l => !l.isEmpty))
    ∧ (apply_edits content commands).2.edited_line_count
      = ((applyAll commands (splitChar '\n' content)).filter
          (fun l => !l.isEmpty)).length := by
  have hk : keepLine = fun l : PyStr => !l.isEmpty := funext keepLine_eq_not_isEmpty
  unfold apply_edits
  simp only [applyFold_fst, hk]
  exact ⟨trivial, trivial⟩

lemma length_modifyAt (f : PyStr → PyStr) :
    ∀ (n : Nat) (l : List PyStr), (modifyAt f n l).length = l.length := by
  intro n l
  induction l generalizing n with
  | nil => cases n <;> rfl
  | cons x xs ih => cases n with
    | zero => rfl
    | succ m => simp [modifyAt, ih]

lemma length_insertAt (x : PyStr) :
    ∀ (n : Nat) (l : List PyStr), (insertAt x n l).length = l.length + 1 := by
  intro n
  induction n with
  | zero => intro l; rfl
  | succ m ih =>
    intro l
    cases l with
    | nil => rfl
    | cons y ys => simp [insertAt, ih]

lemma countP_variants_sum (commands : List EditCommand) :
    commands.countP isReplace + commands.countP isDelete
      + commands.countP isInsert + commands.countP isMerge
    = commands.length := by
  induction commands with
  | nil => simp
  | cons c cs ih =>
    cases c <;>
      simp [List.countP_cons, isReplace, isDelete, isInsert, isMerge] <;>
      omega

end EpubEdit

/-! Claim theorems. -/

namespace EpubEdit

/-- C1 (counterexample): `apply_edits` does not filter out whitespace-only
lines.  The filter `line != "" or line.strip()` keeps every non-empty
line, so a line consisting of a single space survives into the edited
text even though it is blank, and it is counted in `edited_line_count`. -/
theorem whitespace_only_line_survives_filter :
    (apply_edits [' '] []).1 = [' ']
    ∧ strip [' '] = []
    ∧ (apply_edits [' '] []).2.edited_line_count = 1 := by decide

/-- C1 (amended): after all commands are applied, exactly the lines equal
to the empty string are filtered out of the final array before joining
with newline; whitespace-only lines are kept.  `edited_line_count` counts
the kept lines. -/
theorem apply_edits_filters_exactly_empty_lines
    (content : PyStr) (commands : List EditCommand) :
    (apply_edits content commands).1
      = joinSep '\n' ((applyAll commands (splitChar '\n' content)).filter
          (fun l => !l.isEmpty))
    ∧ (apply_edits content commands).2.edited_line_count
      = ((applyAll commands (splitChar '\n' content)).filter
          (fun l => !l.isEmpty)).length :=
  apply_edits_characterization content commands

/-- C2: whenever the stripped input contains the literal substring
`NO_EDITS_NEEDED`, `parse_edits` returns the empty command list,
regardless of any surrounding content. -/
theorem parse_edits_sentinel_yields_empty (s : PyStr)
    (h : containsSub noEditsSentinel (strip s) = true) :
    parse_edits s = [] := by
  simp [parse_edits, h]

/-- C2 witness: a concrete input with text around the sentinel parses to
the empty command list. -/
theorem parse_edits_sentinel_yields_empty_witness :
    parse_edits ("Sure NO_EDITS_NEEDED nothing to fix".data) = [] :=
  parse_edits_sentinel_yields_empty _ (by decide)

/-- C4 (counterexample): the final line count is not stable under a
single in-range `Replace` command: replacing the whole content of the
only line with the empty string makes the blank-line filter remove it,
so the edited line count drops from 1 to 0. -/
theorem replace_changes_net_line_count :
    (apply_edits ['a'] [.replace 1 ['a'] []]).2.original_line_count = 1
    ∧ (apply_edits ['a'] [.replace 1 ['a'] []]).2.edited_line_count = 0
    ∧ (apply_edits ['a'] [.replace 1 ['a'] []]).1 = [] := by decide

/-- C4 (amended): before the final blank-line filter, `Replace`, `Delete`
and `Merge` preserve the length of the line array (tombstoning instead of
splicing) and an in-range `Insert` grows it by exactly one; the final
`edited_line_count` then equals the number of non-empty lines left after
all commands, so the count decreases by the number of lines that end up
empty — whether tombstoned by `Delete`/`Merge`, emptied by `Replace`, or
blank in the original content. -/
theorem apply_edits_line_count_accounting :
    (∀ (c : EditCommand) (lines : List PyStr),
      (applyCommand c lines).length = lines.length + insertDelta c lines.length)
    ∧ ∀ (content : PyStr) (commands : List EditCommand),
      (apply_edits content commands).2.edited_line_count
        = (applyAll commands (splitChar '\n' content)).countP (fun l => !l.isEmpty) := by
  constructor
  · intro c lines
    cases c with
    | replace line pat rep =>
      by_cases h : 0 < line ∧ line ≤ (lines.length : Int) <;>
        simp [applyCommand, insertDelta, h, length_modifyAt]
    | delete line =>
      by_cases h : 0 < line ∧ line ≤ (lines.length : Int) <;>
        simp [applyCommand, insertDelta, h, length_modifyAt]
    | insert line text =>
      by_cases h : 0 < line ∧ line ≤ (lines.length : Int) <;>
        simp [applyCommand, insertDelta, h, length_insertAt]
    | merge s e text =>
      by_cases h : (0 < s ∧ s ≤ (lines.length : Int)) ∧
          (0 < e ∧ e ≤ (lines.length : Int)) <;>
        simp [applyCommand, insertDelta, h]
  · intro content commands
    rw [(apply_edits_characterization content commands).2,
      List.countP_eq_length_filter]

/-- C10: the stats returned by `apply_edits` count commands, not effects:
`total_edits` is the length of the command list, each variant counter
counts the commands of that variant (in-range or not), and the four
variant counters always sum to `total_edits`. -/
theorem apply_edits_stats_count_variants (content : PyStr)
    (commands : List EditCommand) :
    (apply_edits content commands).2.total_edits = commands.length
    ∧ (apply_edits content commands).2.replacements = commands.countP isReplace
    ∧ (apply_edits content commands).2.deletions = commands.countP isDelete
    ∧ (apply_edits content commands).2.insertions = commands.countP isInsert
    ∧ (apply_edits content commands).2.merges = commands.countP isMerge
    ∧ (apply_edits content commands).2.replacements
        + (apply_edits content commands).2.deletions
        + (apply_edits content commands).2.insertions
        + (apply_edits content commands).2.merges
      = (apply_edits content commands).2.total_edits := by
  unfold apply_edits
  simp only [applyFold_snd]
  have hsum := countP_variants_sum commands
  exact ⟨trivial, by omega, by omega, by omega, by omega, by omega⟩

end EpubEdit

namespace EpubEdit

lemma splitChar_no_sep (sep : Char) :
    ∀ x : PyStr, sep ∉ x → splitChar sep x = [x] := by
  intro x
  induction x with
  | nil => intro _; rfl
  | cons c cs ih =>
    intro h
    simp only [List.mem_cons, not_or] at h
    rw [splitChar, if_neg (fun e => h.1 e.symm), ih h.2]

lemma splitChar_append_sep (sep : Char) (t : PyStr) :
    ∀ x : PyStr, sep ∉ x →
      splitChar sep (x ++ sep :: t) = x :: splitChar sep t := by
  intro x
  induction x with
  | nil => intro _; simp [splitChar]
  | cons c cs ih =>
    intro h
    simp only [List.mem_cons, not_or] at h
    rw [List.cons_append, splitChar, if_neg (fun e => h.1 e.symm),
      ih h.2]

lemma splitChar_joinSep (sep : Char) :
    ∀ ss : List PyStr, ss ≠ [] → (∀ seg ∈ ss, sep ∉ seg) →
      splitChar sep (joinSep sep ss) = ss := by
  intro ss
  induction ss with
  | nil => intro h; exact absurd rfl h
  | cons x rest ih =>
    intro _ hmem
    cases rest with
    | nil => exact splitChar_no_sep sep x (hmem x (by simp))
    | cons y rest2 =>
      rw [joinSep, splitChar_append_sep sep _ x (hmem x (by simp)),
        ih (by simp) (fun seg m => hmem seg (List.mem_cons_of_mem _ m))]

lemma parse_body_eq :
    (fun (commands : List EditCommand) (part : PyStr) =>
      let p := strip part
      if p = [] then commands
      else
        match parseSegment p with
        | some c => commands ++ [c]
        | none => commands)
    = fun commands part =>
        match parseStripped part with
        | some c => commands ++ [c]
        | none => commands := by
  funext commands part
  simp only [parseStripped]
  by_cases h : strip part = []
  · simp [h]
  · simp only [h, if_false]

lemma foldl_match_filterMap (f : PyStr → Option EditCommand) :
    ∀ (parts : List PyStr) (acc : List EditCommand),
      parts.foldl
        (fun commands part =>
          match f part with
          | some c => commands ++ [c]
          | none => commands)
        acc
      = acc ++ parts.filterMap f := by
  intro parts
  induction parts with
  | nil => intro acc; simp
  | cons p ps ih =>
    intro acc
    simp only [List.foldl_cons, List.filterMap_cons]
    cases hf : f p with
    | none => simp [ih]
    | some c => rw [ih (acc ++ [c])]; simp

/-- C3: `parse_edits` is total and per-segment: outside the sentinel case
it equals the in-order `filterMap` of the single-segment parser over the
`◊`-split, so commands come back in order of appearance (not sorted by
line number); consequently, for any list of `◊`-free segments joined by
`◊`, each segment is parsed independently and a malformed segment never
invalidates the rest.  The closed conjunct shows a malformed middle
segment being dropped while both neighbours survive, in input order. -/
theorem parse_edits_segmentwise_and_ordered :
    (∀ s : PyStr, containsSub noEditsSentinel (strip s) = false →
        parse_edits s = (splitChar '◊' s).filterMap parseStripped)
    ∧ (∀ ss : List PyStr, ss ≠ [] → (∀ seg ∈ ss, '◊' ∉ seg) →
        containsSub noEditsSentinel (strip (joinSep '◊' ss)) = false →
        parse_edits (joinSep '◊' ss) = ss.filterMap parseStripped)
    ∧ parse_edits ("D∆9◊bogus◊D∆2".data) = [.delete 9, .delete 2] := by
  have h1 : ∀ s : PyStr, containsSub noEditsSentinel (strip s) = false →
      parse_edits s = (splitChar '◊' s).filterMap parseStripped := by
    intro s h
    unfold parse_edits
    rw [if_neg (by simp [h]), parse_body_eq,
      foldl_match_filterMap parseStripped _ []]
    simp
  refine ⟨h1, ?_, by decide⟩
  intro ss hne hmem hsent
  rw [h1 _ hsent, splitChar_joinSep '◊' ss hne hmem]

/-- C3 witness: a concrete input with a malformed middle segment parses
to exactly the commands of the two well-formed segments, in order. -/
theorem parse_edits_segmentwise_and_ordered_witness :
    parse_edits ("R∆1∆a⟹b◊garbage◊D∆2".data)
      = (splitChar '◊' ("R∆1∆a⟹b◊garbage◊D∆2".data)).filterMap parseStripped
    ∧ parse_edits ("R∆1∆a⟹b◊garbage◊D∆2".data)
      = [.replace 1 ['a'] ['b'], .delete 2] :=
  ⟨parse_edits_segmentwise_and_ordered.1 _ (by decide), by decide⟩

lemma buildChapterLineMap_spec (chapters : List ChapterIn) :
    ∀ cur : Nat,
      List.Forall₂ (fun ch (p : Nat × LineMapping) =>
          p.1 = ch.number
          ∧ p.2.line_count = (splitChar '\n' ch.content).length
          ∧ p.2.end_line = p.2.start_line + p.2.line_count - 1)
        chapters (buildChapterLineMap cur chapters)
      ∧ List.Chain' (fun p q : Nat × LineMapping =>
          q.2.start_line = p.2.end_line + 1) (buildChapterLineMap cur chapters)
      ∧ ∀ p ∈ (buildChapterLineMap cur chapters).head?, p.2.start_line = cur := by
  induction chapters with
  | nil => intro cur; simp [buildChapterLineMap]
  | cons ch rest ih =>
    intro cur
    obtain ⟨ih1, ih2, ih3⟩ :=
      ih (cur + (splitChar '\n' ch.content).length - 1 + 1)
    refine ⟨?_, ?_, ?_⟩
    · exact List.forall₂_cons.mpr ⟨⟨rfl, rfl, rfl⟩, ih1⟩
    · exact List.chain'_cons'.mpr ⟨fun q hq => ih3 q hq, ih2⟩
    · intro p hp
      simp only [buildChapterLineMap, List.head?_cons, Option.mem_def,
        Option.some.injEq] at hp
      rw [← hp]

/-- C5: for a non-empty batch, the chapter line map is built by
concatenating the chapters in input order with continuous 1-based
numbering: the first chapter starts at line 1, every entry satisfies
`end_line = start_line + line_count - 1` with `line_count` the chapter's
line count, and each subsequent chapter starts at the previous chapter's
`end_line + 1`; for chapters of 3, 5 and 2 lines this gives the ranges
1–3, 4–8 and 9–10. -/
theorem chapter_line_map_continuous (ch : ChapterIn) (rest : List ChapterIn) :
    (∀ p ∈ (chapter_line_map (ch :: rest)).head?, p.2.start_line = 1)
    ∧ List.Forall₂ (fun c (p : Nat × LineMapping) =>
        p.1 = c.number
        ∧ p.2.line_count = (splitChar '\n' c.content).length
        ∧ p.2.end_line = p.2.start_line + p.2.line_count - 1)
      (ch :: rest) (chapter_line_map (ch :: rest))
    ∧ List.Chain' (fun p q : Nat × LineMapping =>
        q.2.start_line = p.2.end_line + 1) (chapter_line_map (ch :: rest))
    ∧ (chapter_line_map demoChapters).map
        (fun p => (p.1, p.2.start_line, p.2.end_line))
      = [(1, 1, 3), (2, 4, 8), (3, 9, 10)] := by
  obtain ⟨h1, h2, h3⟩ := buildChapterLineMap_spec (ch :: rest) 1
  exact ⟨h3, h1, h2, by decide⟩

/-- C6: a parsed command is assigned to the first chapter whose mapping
range contains its `line_num` (for `Merge`, its `start_line`), with line
numbers translated by `adjusted = absolute - chapterStart + 1`; a command
whose line falls outside every mapping is dropped (`none`).  In the
3/5/2-line demo batch, a command at absolute line 6 maps to chapter 2 at
relative line 3. -/
theorem assign_command_maps_by_line (command : EditCommand)
    (chapterMap : List (Nat × LineMapping)) :
    (assignCommand chapterMap command = none ↔
      ∀ e ∈ chapterMap,
        ¬((e.2.start_line : Int) ≤ command.line_num
          ∧ command.line_num ≤ (e.2.end_line : Int)))
    ∧ (∀ p, assignCommand chapterMap command = some p →
        ∃ e ∈ chapterMap,
          ((e.2.start_line : Int) ≤ command.line_num
            ∧ command.line_num ≤ (e.2.end_line : Int))
          ∧ p = (e.1, adjustCommand command e.2.start_line))
    ∧ assignCommand (chapter_line_map demoChapters) (.delete 6)
      = some (2, .delete 3) := by
  refine ⟨?_, ?_, by decide⟩
  · induction chapterMap with
    | nil => simp [assignCommand]
    | cons e rest ih =>
      obtain ⟨n, m⟩ := e
      by_cases h : (m.start_line : Int) ≤ command.line_num
          ∧ command.line_num ≤ (m.end_line : Int)
      · simp [assignCommand, h]
      · simp only [assignCommand, if_neg h, List.mem_cons]
        rw [ih]
        constructor
        · rintro hr e' (rfl | he') 
          · exact h
          · exact hr e' he'
        · intro hr e' he'
          exact hr e' (Or.inr he')
  · induction chapterMap with
    | nil => intro p hp; simp [assignCommand] at hp
    | cons e rest ih =>
      obtain ⟨n, m⟩ := e
      intro p hp
      by_cases h : (m.start_line : Int) ≤ command.line_num
          ∧ command.line_num ≤ (m.end_line : Int)
      · simp only [assignCommand, if_pos h, Option.some.injEq] at hp
        exact ⟨(n, m), by simp, h, hp.symm⟩
      · simp only [assignCommand, if_neg h] at hp
        obtain ⟨e', he', hc, hpe⟩ := ih p hp
        exact ⟨e', List.mem_cons_of_mem _ he', hc, hpe⟩

/-- C6 witness: applying the assignment theorem at the demo batch and the
command `D∆6` exhibits the containing chapter (chapter 2, lines 4–8) and
the translated command `D∆3`. -/
theorem assign_command_maps_by_line_witness :
    ∃ e ∈ chapter_line_map demoChapters,
      ((e.2.start_line : Int) ≤ (EditCommand.delete 6).line_num
        ∧ (EditCommand.delete 6).line_num ≤ (e.2.end_line : Int))
      ∧ ((2 : Nat), EditCommand.delete 3)
          = (e.1, adjustCommand (EditCommand.delete 6) e.2.start_line) :=
  (assign_command_maps_by_line (.delete 6) (chapter_line_map demoChapters)).2.1
    (2, .delete 3) (by decide)

end EpubEdit

namespace EpubEdit

lemma gcAux_retryable (mr : Nat) (resp : Nat → AttemptResult) :
    ∀ (fuel attempt : Nat) (sleeps : List Nat), attempt + fuel = mr →
      (∀ i, attempt ≤ i → i < mr → isRetryableHttp (resp i) = true) →
      generateCompletionAux mr resp attempt fuel sleeps
        = (.exhausted mr, sleeps ++ (List.range' attempt fuel).map (2 ^ ·)) := by
  intro fuel
  induction fuel with
  | zero => intro attempt sleeps _ _; simp [generateCompletionAux]
  | succ f ih =>
    intro attempt sleeps h hr
    have hi := hr attempt (le_refl _) (by omega)
    cases hresp : resp attempt with
    | success c => rw [hresp] at hi; simp [isRetryableHttp] at hi
    | transportError => rw [hresp] at hi; simp [isRetryableHttp] at hi
    | httpError code body =>
      rw [hresp] at hi
      simp only [isRetryableHttp, Bool.or_eq_true, beq_iff_eq,
        decide_eq_true_eq] at hi
      have step :
          generateCompletionAux mr resp (attempt + 1) f (sleeps ++ [2 ^ attempt])
            = (.exhausted mr,
               (sleeps ++ [2 ^ attempt])
                 ++ (List.range' (attempt + 1) f).map (2 ^ ·)) :=
        ih (attempt + 1) (sleeps ++ [2 ^ attempt]) (by omega)
          (fun i hle hlt => hr i (by omega) hlt)
      rcases hi with hi | hi
      · simp only [generateCompletionAux, hresp, if_pos hi, step,
          List.range'_succ, List.map_cons, List.append_assoc,
          List.singleton_append]
      · by_cases h429 : code = 429
        · simp only [generateCompletionAux, hresp, if_pos h429, step,
            List.range'_succ, List.map_cons, List.append_assoc,
            List.singleton_append]
        · simp only [generateCompletionAux, hresp, if_neg h429,
            if_pos hi, step, List.range'_succ, List.map_cons,
            List.append_assoc, List.singleton_append]

lemma gcAux_succ (mr : Nat) (resp : Nat → AttemptResult) (attempt fuel : Nat)
    (sleeps : List Nat) :
    generateCompletionAux mr resp attempt (fuel + 1) sleeps
      = match resp attempt with
        | .success content => (.success content, sleeps)
        | .httpError code body =>
          if code = 429 then
            generateCompletionAux mr resp (attempt + 1) fuel
              (sleeps ++ [2 ^ attempt])
          else if 500 ≤ code then
            generateCompletionAux mr resp (attempt + 1) fuel
              (sleeps ++ [2 ^ attempt])
          else (.clientError code body, sleeps)
        | .transportError =>
          if attempt < mr - 1 then
            generateCompletionAux mr resp (attempt + 1) fuel
              (sleeps ++ [2 ^ attempt])
          else (.transportRaise, sleeps) := rfl

lemma gcAux_transport (mr : Nat) (resp : Nat → AttemptResult) :
    ∀ (fuel attempt : Nat) (sleeps : List Nat), attempt + fuel = mr →
      1 ≤ fuel →
      (∀ i, attempt ≤ i → i < mr → resp i = .transportError) →
      generateCompletionAux mr resp attempt fuel sleeps
        = (.transportRaise,
           sleeps ++ (List.range' attempt (fuel - 1)).map (2 ^ ·)) := by
  intro fuel
  induction fuel with
  | zero => intro attempt sleeps _ hf; omega
  | succ f ih =>
    intro attempt sleeps h _ hr
    have hresp := hr attempt (le_refl _) (by omega)
    cases f with
    | zero =>
      have hlast : ¬ attempt < mr - 1 := by omega
      simp [generateCompletionAux, hresp, hlast]
    | succ f2 =>
      have hmid : attempt < mr - 1 := by omega
      have step := ih (attempt + 1) (sleeps ++ [2 ^ attempt]) (by omega)
        (by omega) (fun i hle hlt => hr i (by omega) hlt)
      rw [gcAux_succ, hresp]
      simp only [if_pos hmid]
      rw [step]
      simp [List.range'_succ]

/-- C7: the gateway retry policy of `generate_completion`.  A call
answered 429 twice then 200 succeeds after exactly the two backoff
sleeps `2^0 = 1` and `2^1 = 2`; any HTTP error status other than 429 and
below 500 fails immediately on the first attempt with no sleeps,
surfacing the response body; when every attempt is answered with a
retryable HTTP error (429 or ≥ 500), all `max_retries` attempts back off
`2^attempt` seconds and the loop ends in the terminal failure naming the
attempt count; transport errors are retried with the same backoff until
the last attempt, which re-raises the transport error. -/
theorem generate_completion_retry_policy :
    (∀ (resp : Nat → AttemptResult) (b0 b1 content : PyStr),
        resp 0 = .httpError 429 b0 → resp 1 = .httpError 429 b1 →
        resp 2 = .success content →
        generate_completion 3 resp = (.success content, [1, 2]))
    ∧ (∀ (resp : Nat → AttemptResult) (code : Nat) (body : PyStr),
        resp 0 = .httpError code body → code ≠ 429 → code < 500 →
        generate_completion 3 resp = (.clientError code body, []))
    ∧ (∀ (mr : Nat) (resp : Nat → AttemptResult),
        (∀ i, i < mr → isRetryableHttp (resp i) = true) →
        generate_completion mr resp
          = (.exhausted mr, (List.range' 0 mr).map (2 ^ ·)))
    ∧ (∀ (mr : Nat) (resp : Nat → AttemptResult),
        1 ≤ mr → (∀ i, i < mr → resp i = .transportError) →
        generate_completion mr resp
          = (.transportRaise, (List.range' 0 (mr - 1)).map (2 ^ ·))) := by
  refine ⟨?_, ?_, ?_, ?_⟩
  · intro resp b0 b1 content h0 h1 h2
    simp [generate_completion, generateCompletionAux, h0, h1, h2]
  · intro resp code body h0 h429 h500
    have hge : ¬ 500 ≤ code := by omega
    simp [generate_completion, generateCompletionAux, h0, h429, hge]
  · intro mr resp h
    have := gcAux_retryable mr resp mr 0 [] (by omega)
      (fun i _ hi => h i hi)
    simpa using this
  · intro mr resp hmr h
    have := gcAux_transport mr resp mr 0 [] (by omega) hmr
      (fun i _ hi => h i hi)
    simpa using this

/-- C7 witness: the concrete environment answering 429, 429, 200 makes
`generate_completion` succeed with exactly the two sleeps 1 and 2. -/
theorem generate_completion_retry_policy_witness :
    generate_completion 3 resp429 = (.success "ok".data, [1, 2]) :=
  generate_completion_retry_policy.1 resp429 _ _ _ rfl rfl rfl

/-- C8 (counterexample): with the run stopped and two batches still
queued, a worker pulls the first batch, marks only that single item as
processed, and exits; the second batch stays in the queue with no
`task_done` mark (and the gateway is never invoked), so it is not the
case that stopping marks all remaining queued batches as processed. -/
theorem stopped_run_leaves_queued_items_unmarked :
    workerDrain false [1, 2] = ([2], 1, [])
    ∧ (workerDrain false [1, 2]).2.1 ≠ 2 := by decide

/-- C8 (amended): once stop clears the running flag, a worker that pulls
a queue item marks exactly that one item as processed without invoking
the gateway and exits, leaving the rest of the queue untouched; by
contrast a running worker drains the whole queue, invoking the gateway
on every batch in FIFO order. -/
theorem stopped_worker_marks_one_item_no_gateway (queue : List Nat) :
    workerDrain false queue
      = (queue.drop 1, min 1 queue.length, [])
    ∧ workerDrain true queue = ([], queue.length, queue) := by
  constructor
  · cases queue <;> simp [workerDrain]
  · induction queue with
    | nil => rfl
    | cons b rest ih => simp [workerDrain, ih]

end EpubEdit

namespace EpubEdit

lemma chunkDiffLines_cons (cur : Option DiffChunk) (line : PyStr)
    (rest : List PyStr) :
    chunkDiffLines cur (line :: rest)
      = if ("---".data).isPrefixOf line ∨ ("+++".data).isPrefixOf line then
          chunkDiffLines cur rest
        else if ("@@".data).isPrefixOf line then
          match cur with
          | some c => c :: chunkDiffLines (some ⟨line, []⟩) rest
          | none => chunkDiffLines (some ⟨line, []⟩) rest
        else
          match cur with
          | some c =>
            chunkDiffLines
              (some ⟨c.header, c.changes ++ [⟨classifyChange line, line⟩]⟩) rest
          | none => chunkDiffLines none rest := rfl

lemma chunkDiffLines_spec :
    ∀ (lines : List PyStr) (cur : Option DiffChunk),
      (∀ c ∈ cur, ("@@".data).isPrefixOf c.header
        ∧ ∀ ch ∈ c.changes,
            ch.type = classifyChange ch.content
            ∧ ¬("---".data).isPrefixOf ch.content
            ∧ ¬("+++".data).isPrefixOf ch.content
            ∧ ¬("@@".data).isPrefixOf ch.content) →
      ∀ chunk ∈ chunkDiffLines cur lines,
        ("@@".data).isPrefixOf chunk.header
        ∧ ∀ ch ∈ chunk.changes,
            ch.type = classifyChange ch.content
            ∧ ¬("---".data).isPrefixOf ch.content
            ∧ ¬("+++".data).isPrefixOf ch.content
            ∧ ¬("@@".data).isPrefixOf ch.content := by
  intro lines
  induction lines with
  | nil =>
    intro cur hcur chunk hmem
    cases cur with
    | none => simp [chunkDiffLines] at hmem
    | some c =>
      simp only [chunkDiffLines, List.mem_singleton] at hmem
      exact hmem ▸ hcur c rfl
  | cons line rest ih =>
    intro cur hcur chunk hmem
    rw [chunkDiffLines_cons] at hmem
    by_cases h1 : ("---".data).isPrefixOf line ∨ ("+++".data).isPrefixOf line
    · rw [if_pos h1] at hmem
      exact ih cur hcur chunk hmem
    · rw [if_neg h1] at hmem
      push_neg at h1
      by_cases h2 : ("@@".data).isPrefixOf line
      · rw [if_pos h2] at hmem
        have hnew : ∀ c ∈ (some (DiffChunk.mk line []) : Option DiffChunk),
            ("@@".data).isPrefixOf c.header
            ∧ ∀ ch ∈ c.changes,
                ch.type = classifyChange ch.content
                ∧ ¬("---".data).isPrefixOf ch.content
                ∧ ¬("+++".data).isPrefixOf ch.content
                ∧ ¬("@@".data).isPrefixOf ch.content := by
          intro c hc
          simp only [Option.mem_def, Option.some.injEq] at hc
          subst hc
          exact ⟨h2, by simp⟩
        cases cur with
        | none => exact ih _ hnew chunk hmem
        | some c0 =>
          rcases List.mem_cons.mp hmem with rfl | hmem2
          · exact hcur chunk rfl
          · exact ih _ hnew chunk hmem2
      · rw [if_neg h2] at hmem
        cases cur with
        | none => exact ih none (by simp) chunk hmem
        | some c0 =>
          refine ih _ ?_ chunk hmem
          intro c hc
          simp only [Option.mem_def, Option.some.injEq] at hc
          subst hc
          obtain ⟨hh, hch⟩ := hcur c0 rfl
          refine ⟨hh, ?_⟩
          intro ch hchm
          rcases List.mem_append.mp hchm with hin | hin
          · exact hch ch hin
          · simp only [List.mem_singleton] at hin
            subst hin
            exact ⟨rfl, h1.1, h1.2, h2⟩

/-- C9: every chunk produced by `generate_diff` is opened by an
`@@` hunk-header line; each body line is classified `deletion` when it
starts with `-`, `addition` when it starts with `+`, and `context`
otherwise; the `---`/`+++` file-header lines never appear among the
changes (nor do `@@` lines).  Concretely, diffing `"a\nb\nc"` against
`"a\nx\nc"` with the fixed 3-line context yields exactly one chunk with
one deletion (`b`) and one addition (`x`) surrounded by the context
lines `a` and `c`. -/
theorem generate_diff_chunk_structure :
    (∀ original edited : PyStr, ∀ chunk ∈ generate_diff original edited,
        ("@@".data).isPrefixOf chunk.header
        ∧ ∀ ch ∈ chunk.changes,
            ch.type = classifyChange ch.content
            ∧ ¬("---".data).isPrefixOf ch.content
            ∧ ¬("+++".data).isPrefixOf ch.content
            ∧ ¬("@@".data).isPrefixOf ch.content)
    ∧ generate_diff ("a\nb\nc".data) ("a\nx\nc".data)
      = [⟨"@@ -1,3 +1,3 @@".data,
          [⟨.context, " a".data⟩, ⟨.deletion, "-b".data⟩,
           ⟨.addition, "+x".data⟩, ⟨.context, " c".data⟩]⟩] := by
  refine ⟨?_, by decide⟩
  intro original edited chunk hmem
  exact chunkDiffLines_spec _ none (by simp) chunk hmem

/-- C9 witness: the structural theorem applied to the concrete scenario
chunk produced by diffing `"a\nb\nc"` against `"a\nx\nc"`. -/
theorem generate_diff_chunk_structure_witness :
    ("@@".data).isPrefixOf
        (DiffChunk.mk ("@@ -1,3 +1,3 @@".data)
          [⟨.context, " a".data⟩, ⟨.deletion, "-b".data⟩,
           ⟨.addition, "+x".data⟩, ⟨.context, " c".data⟩]).header
    ∧ ∀ ch ∈ (DiffChunk.mk ("@@ -1,3 +1,3 @@".data)
          [⟨.context, " a".data⟩, ⟨.deletion, "-b".data⟩,
           ⟨.addition, "+x".data⟩, ⟨.context, " c".data⟩]).changes,
        ch.type = classifyChange ch.content
        ∧ ¬("---".data).isPrefixOf ch.content
        ∧ ¬("+++".data).isPrefixOf ch.content
        ∧ ¬("@@".data).isPrefixOf ch.content :=
  generate_diff_chunk_structure.1 ("a\nb\nc".data) ("a\nx\nc".data)
    (DiffChunk.mk ("@@ -1,3 +1,3 @@".data)
      [⟨.context, " a".data⟩, ⟨.deletion, "-b".data⟩,
       ⟨.addition, "+x".data⟩, ⟨.context, " c".data⟩])
    (by decide)

end EpubEdit

namespace EpubEdit

/-- C5 witness: applied to the concrete 3/5/2-line demo batch, the head
mapping of the chapter line map starts at line 1. -/
theorem chapter_line_map_continuous_witness :
    ((1 : Nat), (⟨1, 3, ("a1\na2\na3".data : PyStr), 3⟩ : LineMapping)).2.start_line
      = 1 :=
  (chapter_line_map_continuous ⟨1, "One".data, "a1\na2\na3".data⟩
    [⟨2, "Two".data, "b1\nb2\nb3\nb4\nb5".data⟩,
     ⟨3, "Three".data, "c1\nc2".data⟩]).1 _ (by decide)

end EpubEdit
